import Mathlib

/-!
Shallow embedding of the memoric tiered-memory lifecycle engine.

Sources embedded (translated function by function):
- src/utils/scoring.py        (ScoringEngine.compute, _normalize)
- src/core/clustering.py      (SimpleClustering.group, _key_from_metadata)
- src/db/postgres_connector.py (row schema, get_memories, update_tier,
  mark_summarized, upsert_cluster, update_content, insert_memory,
  distinct_threads, link_threads_by_topic, count_by_tier, find_older_than)
- src/core/retriever.py and src/memoric/core/retriever.py (Retriever.search)
- src/memoric/core/policy_executor.py (PolicyExecutor.run, _next_tier,
  _get_tier_order, cluster_and_aggregate)

Python floats are modelled as rationals, datetimes as rational seconds,
SQL NULL as Option.  The database is modelled as an in-memory list of rows
plus an autoincrement counter; each statement of the Python code becomes a
pure state-passing function.  Python exceptions are modelled with Except
where the code can meet a raising collaborator (the pluggable trimmer and
summarizer of the policy executor, and the custom scoring rules).
-/

namespace Memoric

/-- Free-form metadata map, restricted to the keys the engine reads
(topic, category, importance, seen_count, kind).  A missing key is none. -/
structure Metadata where
  topic : Option String := none
  category : Option String := none
  importance : Option String := none
  seen_count : Option Int := none
  kind : Option String := none
deriving DecidableEq

/-- A metadata containment filter (the where_metadata JSONB containment
predicate of get_memories): every key present in the filter must be
present in the row metadata with the same value. -/
structure MetaFilter where
  topic : Option String := none
  category : Option String := none
  importance : Option String := none
  seen_count : Option Int := none
  kind : Option String := none
deriving DecidableEq

/-- One row of the memories table (src/db/postgres_connector.py, columns of
self.table).  summarized is the nullable Integer column (1 = true,
0/NULL = false); timestamps are rational seconds; nspace models the
namespace column (namespace is a Lean keyword). -/
structure MemRecord where
  id : Nat
  user_id : String := ""
  nspace : Option String := none
  thread_id : Option String := none
  content : String := ""
  tier : Option String := none
  score : Option Int := none
  metadata : Option Metadata := none
  related_threads : List String := []
  summarized : Option Int := none
  created_at : Option ℚ := none
  updated_at : Option ℚ := none
deriving DecidableEq

/-- The memories table plus its autoincrement id counter. -/
structure Store where
  rows : List MemRecord := []
  next_id : Nat := 1
deriving DecidableEq

/-- Python truthiness of an optional string argument (None and the empty
string are falsy): filters built with if user_id: / if tier: etc. -/
def strTruthy : Option String → Bool
  | none => false
  | some s => s != ""

/-- Python truthiness of a metadata-filter dict: an empty dict is falsy. -/
def filterTruthy (f : MetaFilter) : Bool :=
  f.topic.isSome || f.category.isSome || f.importance.isSome ||
    f.seen_count.isSome || f.kind.isSome

/-- JSONB containment metadata contains where_metadata: each key of the
filter is present in the row metadata with an equal value.  A NULL
metadata column satisfies no containment condition. -/
def metaContains : Option Metadata → MetaFilter → Bool
  | none, _ => false
  | some md, f =>
      (match f.topic with | none => true | some v => md.topic == some v) &&
      (match f.category with | none => true | some v => md.category == some v) &&
      (match f.importance with | none => true | some v => md.importance == some v) &&
      (match f.seen_count with | none => true | some v => md.seen_count == some v) &&
      (match f.kind with | none => true | some v => md.kind == some v)

/-- The WHERE clause assembled by PostgresConnector.get_memories: one
condition per truthy argument.  related_threads_any_of follows the
PostgreSQL branch (OR of JSONB array containment checks). -/
def memMatches (user_id thread_id tier : Option String)
    (where_metadata : Option MetaFilter) (nspace : Option String)
    (related_threads_any_of : Option (List String))
    (summarized : Option Bool) (r : MemRecord) : Bool :=
  (if strTruthy user_id then r.user_id == user_id.getD "" else true) &&
  (if strTruthy nspace then r.nspace == nspace else true) &&
  (if strTruthy thread_id then r.thread_id == thread_id else true) &&
  (if strTruthy tier then r.tier == tier else true) &&
  (match where_metadata with
    | some f => if filterTruthy f then metaContains r.metadata f else true
    | none => true) &&
  (match summarized with
    | some true => r.summarized == some 1
    | some false => (r.summarized == none) || (r.summarized == some 0)
    | none => true) &&
  (match related_threads_any_of with
    | some ts =>
      if ts.isEmpty then true else ts.any (fun t => r.related_threads.contains t)
    | none => true)

/-- SQL LIMIT guarded by Python truthiness (if limit:). -/
def applyLimit (limit : Option Int) (l : List MemRecord) : List MemRecord :=
  match limit with
  | some n => if n == 0 then l else l.take n.toNat
  | none => l

/-- PostgresConnector.get_memories: filter the table by the truthy
arguments, then apply the LIMIT. -/
def get_memories (s : Store) (user_id thread_id tier : Option String)
    (where_metadata : Option MetaFilter) (nspace : Option String)
    (related_threads_any_of : Option (List String))
    (summarized : Option Bool) (limit : Option Int) : List MemRecord :=
  applyLimit limit
    (s.rows.filter
      (memMatches user_id thread_id tier where_metadata nspace
        related_threads_any_of summarized))

/-- PostgresConnector.update_tier: set tier and updated_at on every row
whose id is in the list. -/
def update_tier (s : Store) (memory_ids : List Nat) (new_tier : String)
    (now : ℚ) : Store :=
  { s with rows := s.rows.map (fun r =>
      if r.id ∈ memory_ids then
        { r with tier := some new_tier, updated_at := some now } else r) }

/-- PostgresConnector.mark_summarized: set summarized = 1 and updated_at on
every row whose id is in the list. -/
def mark_summarized (s : Store) (memory_ids : List Nat) (now : ℚ) : Store :=
  { s with rows := s.rows.map (fun r =>
      if r.id ∈ memory_ids then
        { r with summarized := some 1, updated_at := some now } else r) }

/-- PostgresConnector.update_content: replace content and refresh
updated_at on the row with the given id. -/
def update_content (s : Store) (memory_id : Nat) (new_content : String)
    (now : ℚ) : Store :=
  { s with rows := s.rows.map (fun r =>
      if r.id == memory_id then
        { r with content := new_content, updated_at := some now } else r) }

/-- PostgresConnector.insert_memory: append a fresh row with the next
autoincrement id and both timestamps set to now; returns the new id. -/
def insert_memory (s : Store) (user_id content : String)
    (thread_id tier : Option String) (score : Option Int)
    (metadata : Option Metadata) (nspace : Option String) (now : ℚ) :
    Nat × Store :=
  (s.next_id,
   { rows := s.rows ++
       [{ id := s.next_id, user_id := user_id, nspace := nspace,
          thread_id := thread_id, content := content, tier := tier,
          score := score, metadata := metadata, related_threads := [],
          summarized := none, created_at := some now,
          updated_at := some now }],
     next_id := s.next_id + 1 })

/-- Order-preserving SELECT DISTINCT over the scan order: keep the first
occurrence of each value. -/
def dedupFirst {α : Type} [DecidableEq α] (l : List α) : List α :=
  l.foldl (fun acc x => if x ∈ acc then acc else acc ++ [x]) []

/-- PostgresConnector.distinct_threads: distinct thread_id values of the
rows matching the truthy user_id / tier filters, limited, with NULL and
empty thread ids dropped afterwards (the if r[0] list comprehension). -/
def distinct_threads (s : Store) (user_id tier : Option String)
    (limit : Int := 1000) : List String :=
  ((dedupFirst ((s.rows.filter (fun r =>
      (if strTruthy user_id then r.user_id == user_id.getD "" else true) &&
      (if strTruthy tier then r.tier == tier else true))).map
        (·.thread_id))).take limit.toNat).filterMap
    (fun o => match o with
      | some t => if t == "" then none else some t
      | none => none)

/-- PostgresConnector.link_threads_by_topic: distinct thread ids of the
rows of this user whose metadata topic equals the given topic (a NULL
metadata column never matches), limited, falsy ids dropped. -/
def link_threads_by_topic (s : Store) (user_id topic : String)
    (limit : Int := 100) : List String :=
  ((dedupFirst ((s.rows.filter (fun r =>
      r.user_id == user_id &&
      (match r.metadata with
        | some md => md.topic == some topic
        | none => false))).map (·.thread_id))).take limit.toNat).filterMap
    (fun o => match o with
      | some t => if t == "" then none else some t
      | none => none)

/-- PostgresConnector.count_by_tier: group the table rows by tier value and
count each group (keys kept as the nullable tier value). -/
def count_by_tier (s : Store) : List (Option String × Nat) :=
  (dedupFirst (s.rows.map (·.tier))).map
    (fun t => (t, (s.rows.filter (fun r => r.tier == t)).length))

/-- PostgresConnector.find_older_than: rows with updated_at strictly before
now minus the given number of days (a NULL timestamp never compares),
optionally restricted to a tier and an owner, limited.  The user_id
condition mirrors the owner filter of get_memories (the memoric executor
passes user_id; spec section 6 lists owner among the query filters). -/
def find_older_than (s : Store) (user_id : Option String) (days : Int)
    (from_tier : Option String) (limit : Option Int) (now : ℚ) :
    List MemRecord :=
  applyLimit limit
    (s.rows.filter (fun r =>
      (match r.updated_at with
        | some u => decide (u < now - (days : ℚ) * 86400)
        | none => false) &&
      (if strTruthy from_tier then r.tier == from_tier else true) &&
      (if strTruthy user_id then r.user_id == user_id.getD "" else true)))

/-- Python str.lower modelled characterwise (structural recursion so that
concrete strings evaluate; agrees with the library toLower). -/
def pyLower (s : String) : String := ⟨s.data.map Char.toLower⟩

/-! Scoring (src/utils/scoring.py). -/

/-- ScoringConfig of src/utils/scoring.py with its constructor defaults. -/
structure ScoringConfig where
  importance_weight : ℚ := 1/2
  recency_weight : ℚ := 3/10
  repetition_weight : ℚ := 1/5
  decay_days : Int := 60
deriving DecidableEq

/-- The _normalize helper: clamp value into the range and rescale to the
unit interval; degenerate ranges normalize to 0. -/
def _normalize (value min_value max_value : ℚ) : ℚ :=
  if max_value ≤ min_value then 0
  else (max (min value max_value) min_value - min_value) / (max_value - min_value)

/-- Python round: round half to even (bankers rounding). -/
def pyRound (x : ℚ) : ℤ :=
  if Int.fract x < 1/2 then ⌊x⌋
  else if 1/2 < Int.fract x then ⌊x⌋ + 1
  else if ⌊x⌋ % 2 = 0 then ⌊x⌋ else ⌊x⌋ + 1

/-- The categorical importance mapping of ScoringEngine.compute with its
default of 5 for unknown labels. -/
def importanceLevel (importance_text : String) : ℚ :=
  if importance_text == "low" then 3
  else if importance_text == "medium" then 5
  else if importance_text == "high" then 8
  else if importance_text == "critical" then 10
  else 5

/-- A custom scoring rule: the Python callable may raise, modelled by
returning none (the except branch of compute skips it). -/
def CustomRule : Type := MemRecord → Option ℚ

/-- The custom-rule bonus loop of ScoringEngine.compute: bonuses are
summed in registration order and a raising rule is skipped (the except:
continue branch), contributing exactly 0. -/
def bonusOf (custom_rules : List CustomRule) (memory : MemRecord) : ℚ :=
  custom_rules.foldl
    (fun b rule => match rule memory with
      | some v => b + v
      | none => b) 0

/-- ScoringEngine.compute: weighted normalized components, base score
clamped to the unit interval and scaled to 100, additive custom-rule
bonuses with failed rules skipped, final sum clamped to the range 0..100
and rounded. -/
def compute (cfg : ScoringConfig) (custom_rules : List CustomRule)
    (memory : MemRecord) (now : ℚ) : ℤ :=
  let meta := memory.metadata.getD {}
  let importance_text := pyLower (meta.importance.getD "medium")
  let importance_level := importanceLevel importance_text
  let last_seen_at := match memory.updated_at with
    | some t => some t
    | none => memory.created_at
  let seen_count := meta.seen_count.getD 1
  let age_seconds := match last_seen_at with
    | some t => max (now - t) 0
    | none => 0
  let recency_norm := 1 - _normalize age_seconds 0 ((cfg.decay_days : ℚ) * 24 * 3600)
  let importance_norm := _normalize importance_level 0 10
  let repetition_norm := 1 - _normalize (seen_count : ℚ) 0 20
  let combined := cfg.importance_weight * importance_norm
    + cfg.recency_weight * recency_norm
    + cfg.repetition_weight * repetition_norm
  let base_score := max 0 (min 1 combined) * 100
  let bonus := bonusOf custom_rules memory
  let final := max 0 (min 100 (base_score + bonus))
  pyRound final

/-! Retriever (src/core/retriever.py and src/memoric/core/retriever.py;
both share the same scope resolution, candidate query, ranking and
truncation logic — the memoric variant only adds warnings and metrics). -/

/-- Stable insertion of a scored record into a list sorted descending by
score: the new element (which comes earlier in the original list) is
placed before every element with score at most its own.  Models the
stability of the CPython sort with reverse set. -/
def insortDesc (x : MemRecord × ℤ) :
    List (MemRecord × ℤ) → List (MemRecord × ℤ)
  | [] => [x]
  | y :: ys => if y.2 ≤ x.2 then x :: y :: ys else y :: insortDesc x ys

/-- Stable descending sort by score (ranked.sort with reverse set). -/
def sortDesc (l : List (MemRecord × ℤ)) : List (MemRecord × ℤ) :=
  l.foldr insortDesc []

/-- Python list slicing l[:n]: a nonnegative bound keeps the first n
elements, a negative bound drops the last n elements. -/
def pyTake {α : Type} (l : List α) (n : ℤ) : List α :=
  if 0 ≤ n then l.take n.toNat else l.take (l.length - (-n).toNat)

/-- Scope resolution of Retriever.search: returns the effective
(user_id, thread_id, related_threads_any_of) filters. -/
def resolveScope (s : Store) (user_id thread_id : Option String)
    (metadata_filter : Option MetaFilter) (scope : String) :
    Option String × Option String × Option (List String) :=
  if scope == "topic" then
    match metadata_filter with
    | some f =>
      if filterTruthy f && f.topic.isSome && strTruthy user_id then
        (user_id, thread_id,
         some (link_threads_by_topic s (user_id.getD "") (f.topic.getD "") 100))
      else (user_id, thread_id, none)
    | none => (user_id, thread_id, none)
  else if scope == "user" then (user_id, none, none)
  else if scope == "global" then (none, none, none)
  else (user_id, thread_id, none)

/-- The ranked list built by Retriever.search before truncation: fetch up
to 1000 non-summarized candidates under the resolved filters, attach the
computed score to each, and sort stably by descending score. -/
def rankedRecords (s : Store) (cfg : ScoringConfig)
    (custom_rules : List CustomRule) (user_id thread_id : Option String)
    (metadata_filter : Option MetaFilter) (scope : String)
    (nspace : Option String) (now : ℚ) : List (MemRecord × ℤ) :=
  let resolved := resolveScope s user_id thread_id metadata_filter scope
  let records := get_memories s resolved.1 resolved.2.1 none metadata_filter
    nspace resolved.2.2 (some false) (some 1000)
  sortDesc (records.map (fun r => (r, compute cfg custom_rules r now)))

/-- Retriever.search: the ranked list truncated to top_k when that is
truthy, else to the configured default (limit = top_k or default_top_k). -/
def search (s : Store) (cfg : ScoringConfig)
    (custom_rules : List CustomRule) (default_top_k : ℤ)
    (user_id thread_id : Option String)
    (metadata_filter : Option MetaFilter) (scope : String)
    (nspace : Option String) (top_k : Option ℤ) (now : ℚ) :
    List (MemRecord × ℤ) :=
  let limit := match top_k with
    | some k => if k == 0 then default_top_k else k
    | none => default_top_k
  pyTake (rankedRecords s cfg custom_rules user_id thread_id metadata_filter
    scope nspace now) limit

/-! Clustering (src/core/clustering.py; the src/memoric/core/clustering.py
copy is identical in logic). -/

/-- The _key_from_metadata helper: lowercased topic and category, each
defaulting to general. -/
def _key_from_metadata (metadata : Metadata) : String × String :=
  (pyLower (metadata.topic.getD "general"),
   pyLower (metadata.category.getD "general"))

/-- A cluster draft as produced by SimpleClustering.group.  The dataclass
created_at default is a constant evaluated once at class definition time
and plays no role, so it is omitted. -/
structure Cluster where
  topic : String
  category : String
  memory_ids : List Nat
  summary : String := ""
deriving DecidableEq

/-- Insert one record id into the bucket of its key, preserving dict
insertion order (buckets.setdefault(key, []).append(id)). -/
def insertBucket (buckets : List ((String × String) × List Nat))
    (key : String × String) (i : Nat) :
    List ((String × String) × List Nat) :=
  match buckets with
  | [] => [(key, [i])]
  | (k, v) :: rest =>
    if k = key then (k, v ++ [i]) :: rest
    else (k, v) :: insertBucket rest key i

/-- The clustering key of one record: its metadata key, a missing
metadata map counting as empty (meta = m.get of metadata or empty dict). -/
def keyOf (m : MemRecord) : String × String :=
  _key_from_metadata (m.metadata.getD {})

/-- The bucket map built by SimpleClustering.group: records are folded in
order, keyed by their metadata. -/
def bucketsOf (memories : List MemRecord) :
    List ((String × String) × List Nat) :=
  memories.foldl (fun bs m => insertBucket bs (keyOf m) m.id) []

/-- SimpleClustering.group: one cluster per non-empty bucket, in key
insertion order. -/
def group (memories : List MemRecord) : List Cluster :=
  (bucketsOf memories).map
    (fun kv => { topic := kv.1.1, category := kv.1.2, memory_ids := kv.2 })

/-! Clusters table (src/db/postgres_connector.py, clusters_table and its
upsert_cluster / get_clusters operations). -/

/-- One row of the memory_clusters table. -/
structure ClusterRow where
  cluster_id : Nat
  topic : String
  category : String
  memory_ids : List Nat
  summary : String
  created_at : ℚ
deriving DecidableEq

/-- The memory_clusters table with its autoincrement counter. -/
structure ClustersTable where
  rows : List ClusterRow := []
  next_cluster_id : Nat := 1
deriving DecidableEq

/-- PostgresConnector.upsert_cluster: the body (its own comment says
naive: insert new cluster) unconditionally INSERTs a fresh row with a new
autoincrement cluster_id and returns that id — it never looks for an
existing row with the same key. -/
def upsert_cluster (t : ClustersTable) (topic category : String)
    (memory_ids : List Nat) (summary : String) (now : ℚ) :
    Nat × ClustersTable :=
  (t.next_cluster_id,
   { rows := t.rows ++
       [{ cluster_id := t.next_cluster_id, topic := topic,
          category := category, memory_ids := memory_ids,
          summary := summary, created_at := now }],
     next_cluster_id := t.next_cluster_id + 1 })

/-- PostgresConnector.get_clusters: rows optionally filtered by truthy
topic, limited. -/
def get_clusters (t : ClustersTable) (topic : Option String)
    (limit : Int := 100) : List ClusterRow :=
  ((t.rows.filter (fun r =>
      if strTruthy topic then r.topic == topic.getD "" else true)).take
    limit.toNat)

/-- PolicyExecutor.cluster_and_aggregate (src/core/policy_executor.py):
fetch up to 1000 memories, group them, upsert every draft and count the
upserts whose returned id is truthy (autoincrement ids start at 1, so
every one counts). -/
def cluster_and_aggregate (s : Store) (t : ClustersTable) (now : ℚ) :
    Nat × ClustersTable :=
  let memories := get_memories s none none none none none none none (some 1000)
  let clusters := group memories
  clusters.foldl
    (fun acc c =>
      let r := upsert_cluster acc.2 c.topic c.category c.memory_ids c.summary now
      (if r.1 ≠ 0 then acc.1 + 1 else acc.1, r.2))
    (0, t)

/-! Policy executor (src/memoric/core/policy_executor.py; the older
src/core/policy_executor.py differs only in hardcoding the tier order, in
lacking the existing-aggregate check of the thread pass, and in lacking
the user_id parameter).  The pluggable trimmer and summarizer are
parameters returning Except: an error value models the collaborator
raising, and its propagation follows the Python control flow, which has no
exception handler inside run.  All timestamps written during one run use
the single reference instant now. -/

/-- One tier entry of the storage.tiers configuration list: name,
expiry_days (0 models a missing or null value after int(x or 0)) and the
trim max_chars (0 models a missing trim section). -/
structure TierCfg where
  name : String := ""
  expiry_days : Int := 0
  max_chars : Int := 0
deriving DecidableEq

/-- The summarization configuration section with its code defaults. -/
structure SummarizationCfg where
  enabled : Bool := false
  min_chars : Int := 600
  target_chars : Int := 300
  mark_summarized : Bool := true
deriving DecidableEq

/-- The configuration slice the policy executor reads. -/
structure Config where
  tiers : List TierCfg := []
  summarization : SummarizationCfg := {}
deriving DecidableEq

/-- The summary counts dictionary returned by PolicyExecutor.run (the
ran_at wall-clock string is presentation only and omitted). -/
structure Counts where
  migrated : Nat := 0
  summarized : Nat := 0
  trimmed : Nat := 0
  thread_summaries : Nat := 0
  clusters : Nat := 0
  by_tier : List (Option String × Nat) := []
deriving DecidableEq

/-- A pluggable text processor (trimmer or summarizer): text and a size
target in, new text out, or an error when the collaborator raises. -/
def TextProc : Type := String → Int → Except String String

/-- PolicyExecutor._get_tier_order: the truthy tier names in configured
order. -/
def _get_tier_order (cfg : Config) : List String :=
  (cfg.tiers.map (·.name)).filter (fun n => n != "")

/-- PolicyExecutor._next_tier: the entry immediately after name in the
configured tier order, none when name is absent or last. -/
def _next_tier (cfg : Config) (name : String) : Option String :=
  let order := _get_tier_order cfg
  if order.contains name then order[(order.indexOf name) + 1]? else none

/-- The per-record loop of the trim step: trim each fetched record and
persist when the output differs, counting the updates; a trimmer error
propagates. -/
def trimLoop (trimmer : TextProc) (max_chars : Int) (now : ℚ) :
    List MemRecord → Store → Nat → Except String (Store × Nat)
  | [], s, k => .ok (s, k)
  | r :: rs, s, k =>
    match trimmer r.content max_chars with
    | .error e => .error e
    | .ok trimmed =>
      if trimmed ≠ r.content then
        trimLoop trimmer max_chars now rs (update_content s r.id trimmed now) (k + 1)
      else trimLoop trimmer max_chars now rs s k

/-- The trim step of one tier iteration of run: active only when
max_chars is positive; fetches up to 1000 records of the tier first, then
loops over that snapshot. -/
def trimPhase (trimmer : TextProc) (user_id : Option String) (name : String)
    (max_chars : Int) (now : ℚ) (s : Store) : Except String (Store × Nat) :=
  if max_chars > 0 then
    trimLoop trimmer max_chars now
      (get_memories s user_id none (some name) none none none none (some 1000))
      s 0
  else .ok (s, 0)

/-- The expiry-based migration step of one tier iteration of run: records
of this tier older than the expiry cutoff are batch-moved to the next
configured tier when one exists, and the batch size is returned. -/
def migratePhase (cfg : Config) (user_id : Option String) (name : String)
    (expiry_days : Int) (now : ℚ) (s : Store) : Store × Nat :=
  if expiry_days > 0 then
    let older := find_older_than s user_id expiry_days (some name) (some 1000) now
    match _next_tier cfg name with
    | some target =>
      if target ≠ "" then
        let moved_ids := older.map (·.id)
        if moved_ids ≠ [] then (update_tier s moved_ids target now, moved_ids.length)
        else (s, 0)
      else (s, 0)
    | none => (s, 0)
  else (s, 0)

/-- One iteration of the per-tier loop of run: trim, then migrate, adding
to the trimmed and migrated counters. -/
def tierStep (cfg : Config) (trimmer : TextProc) (user_id : Option String)
    (now : ℚ) (sc : Store × Counts) (tc : TierCfg) :
    Except String (Store × Counts) :=
  match trimPhase trimmer user_id tc.name tc.max_chars now sc.1 with
  | .error e => .error e
  | .ok (s1, k) =>
    let m := migratePhase cfg user_id tc.name tc.expiry_days now s1
    .ok (m.1, { sc.2 with trimmed := sc.2.trimmed + k, migrated := sc.2.migrated + m.2 })

/-- The per-tier loop of run over the configured tiers in order. -/
def tiersLoop (cfg : Config) (trimmer : TextProc) (user_id : Option String)
    (now : ℚ) : List TierCfg → Store × Counts → Except String (Store × Counts)
  | [], sc => .ok sc
  | tc :: rest, sc =>
    match tierStep cfg trimmer user_id now sc tc with
    | .error e => .error e
    | .ok sc1 => tiersLoop cfg trimmer user_id now rest sc1

/-- The per-record loop of the global summarization pass: records at or
above min_chars are summarized, persisted when changed, counted, and
optionally marked summarized; a summarizer error propagates. -/
def sumLoop (summarizer : TextProc) (min_chars target_chars : Int)
    (mark_sum : Bool) (now : ℚ) :
    List MemRecord → Store → Nat → Except String (Store × Nat)
  | [], s, k => .ok (s, k)
  | r :: rs, s, k =>
    if (r.content.length : Int) ≥ min_chars then
      match summarizer r.content target_chars with
      | .error e => .error e
      | .ok new_content =>
        if new_content ≠ r.content then
          sumLoop summarizer min_chars target_chars mark_sum now rs
            (if mark_sum then
              mark_summarized (update_content s r.id new_content now) [r.id] now
            else update_content s r.id new_content now) (k + 1)
        else sumLoop summarizer min_chars target_chars mark_sum now rs s k
    else sumLoop summarizer min_chars target_chars mark_sum now rs s k

/-- The global summarization pass of run, active only when enabled. -/
def summarizePhase (cfg : Config) (summarizer : TextProc)
    (user_id : Option String) (now : ℚ) (s : Store) :
    Except String (Store × Nat) :=
  if cfg.summarization.enabled then
    sumLoop summarizer cfg.summarization.min_chars cfg.summarization.target_chars
      cfg.summarization.mark_summarized now
      (get_memories s user_id none none none none none none (some 1000)) s 0
  else .ok (s, 0)

/-- The member fetch of the thread-aggregation pass: up to 200
un-summarized records of this thread in the long_term tier (note: not
restricted by owner). -/
def threadMembers (s : Store) (th : String) : List MemRecord :=
  get_memories s none (some th) (some "long_term") none none none
    (some false) (some 200)

/-- The existing-aggregate check of the thread-aggregation pass: at most
one record of this thread in the long_term tier whose metadata carries the
thread_summary marker. -/
def threadExisting (s : Store) (th : String) : List MemRecord :=
  get_memories s none (some th) (some "long_term")
    (some { kind := some "thread_summary" }) none none none (some 1)

/-- The thread-aggregation body for one thread of the long_term tier:
fetch up to 200 un-summarized members; when at least 10, insert one
aggregate record tagged kind thread_summary unless one already exists,
and in either case mark the fetched members summarized. -/
def threadStepOne (summarizer : TextProc) (th : String) (now : ℚ)
    (s : Store) : Except String (Store × Nat) :=
  match threadMembers s th with
  | [] => .ok (s, 0)
  | r0 :: rest =>
    if (r0 :: rest).length ≥ 10 then
      if (threadExisting s th).isEmpty then
        match summarizer (String.intercalate "\n" ((r0 :: rest).map (·.content))) 1000 with
        | .error e => .error e
        | .ok summary_text =>
          let ins := insert_memory s r0.user_id summary_text (some th)
            (some "long_term") none (some { kind := some "thread_summary" }) none now
          .ok (mark_summarized ins.2 ((r0 :: rest).map (·.id)) now, 1)
      else
        .ok (mark_summarized s ((r0 :: rest).map (·.id)) now, 0)
    else .ok (s, 0)

/-- The loop of the thread-aggregation pass over the distinct long_term
threads, accumulating the thread_summaries counter. -/
def threadLoop (summarizer : TextProc) (now : ℚ) :
    List String → Store → Nat → Except String (Store × Nat)
  | [], s, k => .ok (s, k)
  | th :: ths, s, k =>
    match threadStepOne summarizer th now s with
    | .error e => .error e
    | .ok (s1, d) => threadLoop summarizer now ths s1 (k + d)

/-- The thread-aggregation pass of run. -/
def threadPhase (summarizer : TextProc) (user_id : Option String) (now : ℚ)
    (s : Store) : Except String (Store × Nat) :=
  threadLoop summarizer now (distinct_threads s user_id (some "long_term") 1000) s 0

/-- PolicyExecutor.run: per-tier trim and migrate, the global
summarization pass, the thread-aggregation pass, then the by_tier counts.
A collaborator error anywhere propagates out, as in the Python code,
which installs no exception handler. -/
def runE (cfg : Config) (trimmer summarizer : TextProc)
    (user_id : Option String) (s : Store) (now : ℚ) :
    Except String (Store × Counts) :=
  match tiersLoop cfg trimmer user_id now cfg.tiers (s, {}) with
  | .error e => .error e
  | .ok sc =>
    match summarizePhase cfg summarizer user_id now sc.1 with
    | .error e => .error e
    | .ok (s2, nsum) =>
      match threadPhase summarizer user_id now s2 with
      | .error e => .error e
      | .ok (s3, nth) =>
        .ok (s3, { sc.2 with summarized := sc.2.summarized + nsum, thread_summaries := sc.2.thread_summaries + nth, by_tier := count_by_tier s3 })

/-! Concrete fixtures used by counterexamples and witnesses. -/

/-- A store with a single plain record (no metadata), as produced by one
insert. -/
def stC1 : Store := { rows := [{ id := 1, user_id := "u1" }], next_id := 2 }

/-- A store with three records of one owner and thread (timestamps left
NULL so that scoring sees a fresh record). -/
def stC6 : Store :=
  { rows := [
      { id := 1, user_id := "u1", thread_id := some "t1", content := "a" },
      { id := 2, user_id := "u1", thread_id := some "t1", content := "b" },
      { id := 3, user_id := "u1", thread_id := some "t1", content := "c" }],
    next_id := 4 }

/-- A trimmer or summarizer that never fails and returns its input
unchanged (the no-op processor variant). -/
def okProc : TextProc := fun text _ => .ok text

/-- A trimmer that always raises. -/
def failProc : TextProc := fun _ _ => .error "boom"

/-- A record in the short_term tier with content long enough to trim. -/
def rowC5 : MemRecord :=
  { id := 1, user_id := "u1", tier := some "short_term", content := "hello world" }

/-- A store holding just that record. -/
def stC5 : Store := { rows := [rowC5], next_id := 2 }

/-- A configuration with one tier that has an active trim threshold. -/
def cfgC5 : Config := { tiers := [{ name := "short_term", max_chars := 5 }] }

/-- A store with ten un-summarized long_term records in one thread, enough
to trigger thread aggregation. -/
def stC4 : Store :=
  { rows := (List.range 10).map (fun i =>
      { id := i + 1, user_id := "u1", thread_id := some "t1",
        tier := some "long_term", content := "c" }),
    next_id := 11 }

/-- The text the no-op summarizer produces for the aggregate of stC4. -/
def c4txt : String :=
  String.intercalate "\n" ((threadMembers stC4 "t1").map (fun m => m.content))

/-- The store after thread aggregation of stC4 at time 7: the aggregate
record appended and the members marked summarized. -/
def c4s : Store :=
  mark_summarized
    (insert_memory stC4 "u1" c4txt (some "t1") (some "long_term") none
      (some { kind := some "thread_summary" }) none 7).2
    ((threadMembers stC4 "t1").map (fun m => m.id)) 7

/-- A three-tier configuration with no active trim or expiry thresholds. -/
def cfgW : Config :=
  { tiers := [{ name := "short_term" }, { name := "mid_term" },
              { name := "long_term" }] }

/-- The counts a policy run over stC1 produces under cfgW. -/
def cW : Counts := { by_tier := [(none, 1)] }

/-- The invariant carried through the record fold of group: keys are
pairwise distinct, every bucket holds exactly the ids of the processed
records with its key (in order), and every processed record has a
bucket. -/
def BucketInv (p : List MemRecord)
    (bs : List ((String × String) × List Nat)) : Prop :=
  (bs.map Prod.fst).Nodup ∧
  (∀ kv ∈ bs, kv.2 = (p.filter (fun m => keyOf m == kv.1)).map (fun m => m.id)) ∧
  (∀ m ∈ p, keyOf m ∈ bs.map Prod.fst)

/-- The database invariant of the memories table: row ids are pairwise
distinct and below the autoincrement counter. -/
def StoreInv (s : Store) : Prop :=
  (s.rows.map (fun r => r.id)).Nodup ∧ ∀ r ∈ s.rows, r.id < s.next_id

/-- A non-migration update of one row during a policy run at instant now:
content or summarized may change, the tier does not, and updated_at is
refreshed. -/
def RowTouched (now : ℚ) (r r' : MemRecord) : Prop :=
  r'.id = r.id ∧ r'.updated_at = some now ∧ r'.tier = r.tier

/-- A migration of one row during a policy run at instant now: the row was
due (its previous updated_at lay at least one day before now, since every
active expiry threshold is at least one day) and its tier moved to the
immediate successor of its previous tier in the configured order. -/
def RowMigrated (cfg : Config) (now : ℚ) (r r' : MemRecord) : Prop :=
  r'.id = r.id ∧ r'.updated_at = some now ∧
  (∃ u, r.updated_at = some u ∧ u < now - 86400) ∧
  (∃ name next, r.tier = some name ∧ _next_tier cfg name = some next ∧
    r'.tier = some next)

/-- What can happen to one row across a policy run: untouched, a
non-migration update, or exactly one forward migration step. -/
def RowReach (cfg : Config) (now : ℚ) (r r' : MemRecord) : Prop :=
  r' = r ∨ RowTouched now r r' ∨ RowMigrated cfg now r r'

/-- Row-wise relation between the store before and after (part of) a
policy run: rows are only appended, and every pre-existing row evolves by
RowReach. -/
def RowsReach (cfg : Config) (now : ℚ) (s s' : Store) : Prop :=
  s.rows.length ≤ s'.rows.length ∧
  ∀ (j : Nat) (r : MemRecord), s.rows[j]? = some r →
    ∃ r', s'.rows[j]? = some r' ∧ RowReach cfg now r r'

/-- The number of rows whose tier differs between two row lists, compared
positionwise. -/
def changedTiers (l l' : List MemRecord) : Nat :=
  ((l.zip l').filter (fun p => !(p.1.tier == p.2.tier))).length

/-! Helper lemmas. -/

theorem length_insortDesc (x : MemRecord × ℤ) (l : List (MemRecord × ℤ)) :
    (insortDesc x l).length = l.length + 1 := by
  induction l with
  | nil => rfl
  | cons y ys ih =>
    unfold insortDesc
    split_ifs <;> simp [ih]

theorem length_sortDesc (l : List (MemRecord × ℤ)) :
    (sortDesc l).length = l.length := by
  induction l with
  | nil => rfl
  | cons y ys ih =>
    unfold sortDesc at ih ⊢
    simp [List.foldr_cons, length_insortDesc, ih]

theorem mem_insortDesc {y x : MemRecord × ℤ} {l : List (MemRecord × ℤ)} :
    y ∈ insortDesc x l ↔ y = x ∨ y ∈ l := by
  induction l with
  | nil => simp [insortDesc]
  | cons z zs ih =>
    unfold insortDesc
    split_ifs
    · simp [or_assoc]
    · simp [ih]
      tauto

theorem mem_sortDesc {y : MemRecord × ℤ} {l : List (MemRecord × ℤ)} :
    y ∈ sortDesc l ↔ y ∈ l := by
  induction l with
  | nil => simp [sortDesc]
  | cons z zs ih =>
    unfold sortDesc at ih ⊢
    simp [List.foldr_cons, mem_insortDesc, ih]

theorem mem_pyTake {α : Type} {y : α} {l : List α} {n : ℤ}
    (h : y ∈ pyTake l n) : y ∈ l := by
  unfold pyTake at h
  split_ifs at h <;> exact List.mem_of_mem_take h

theorem floor_le_pyRound (x : ℚ) : ⌊x⌋ ≤ pyRound x := by
  unfold pyRound
  split_ifs <;> omega

theorem pyRound_le_floor_add_one (x : ℚ) : pyRound x ≤ ⌊x⌋ + 1 := by
  unfold pyRound
  split_ifs <;> omega

theorem pyRound_nonneg {x : ℚ} (hx : 0 ≤ x) : 0 ≤ pyRound x := by
  have h : (0 : ℤ) ≤ ⌊x⌋ := by
    exact_mod_cast Int.le_floor.mpr (by exact_mod_cast hx)
  have := floor_le_pyRound x
  omega

theorem pyRound_le_intCast {x : ℚ} {n : ℤ} (hx : x ≤ (n : ℚ)) :
    pyRound x ≤ n := by
  unfold pyRound
  have hfl : ⌊x⌋ ≤ n := by
    have := Int.floor_le_floor (α := ℚ) hx
    simpa using this
  have hfr : ∀ h : ¬ Int.fract x < 1/2, ⌊x⌋ < n := by
    intro h
    have hpos : 0 < Int.fract x := by linarith [Int.fract_nonneg x]
    have hlt : (⌊x⌋ : ℚ) < x := by
      have := Int.fract_add_floor x
      nlinarith
    rcases lt_or_eq_of_le hfl with h1 | h1
    · exact h1
    · exfalso
      rw [h1] at hlt
      linarith
  split_ifs with h1 h2 h3
  · exact hfl
  · have := hfr h1
    omega
  · exact hfl
  · have := hfr h1
    omega

theorem pyRound_mono {x y : ℚ} (h : x ≤ y) : pyRound x ≤ pyRound y := by
  have hfl : ⌊x⌋ ≤ ⌊y⌋ := Int.floor_le_floor h
  rcases lt_or_eq_of_le hfl with hlt | heq
  · have h1 := pyRound_le_floor_add_one x
    have h2 := floor_le_pyRound y
    omega
  · have hfr : Int.fract x ≤ Int.fract y := by
      have hx := Int.fract_add_floor x
      have hy := Int.fract_add_floor y
      have : (⌊x⌋ : ℚ) = (⌊y⌋ : ℚ) := by exact_mod_cast heq
      nlinarith
    unfold pyRound
    split_ifs <;> first | omega | linarith

theorem _normalize_mono {a b v1 v2 : ℚ} (h : v1 ≤ v2) :
    _normalize v1 a b ≤ _normalize v2 a b := by
  unfold _normalize
  split_ifs with hba
  · exact le_refl 0
  · have hpos : (0 : ℚ) < b - a := by
      have := not_le.mp hba
      linarith
    have hnum : max (min v1 b) a - a ≤ max (min v2 b) a - a :=
      sub_le_sub_right (max_le_max (min_le_min h le_rfl) le_rfl) a
    exact div_le_div_of_nonneg_right hnum hpos.le

/-- Replace the seen_count entry of the metadata map of a record, leaving
every other field as it is (a missing metadata map becomes one holding
only seen_count). -/
def setSeen (m : MemRecord) (s : Int) : MemRecord :=
  { m with metadata := some { m.metadata.getD {} with seen_count := some s } }

/-- C2: for every record, reference time, weight configuration and list of
custom rules with arbitrary (possibly unbounded positive or negative)
bonuses, ScoringEngine.compute returns an integer between 0 and 100: the
weighted base score is clamped to the unit interval before scaling and the
sum of base score and bonuses is clamped to the range 0..100 before
rounding. -/
theorem compute_bounded (cfg : ScoringConfig) (custom_rules : List CustomRule)
    (memory : MemRecord) (now : ℚ) :
    0 ≤ compute cfg custom_rules memory now ∧
      compute cfg custom_rules memory now ≤ 100 := by
  simp only [compute]
  constructor
  · exact pyRound_nonneg (le_max_left _ _)
  · apply pyRound_le_intCast
    push_cast
    exact max_le (by norm_num) (min_le_left _ _)

/-- C8: a custom rule that raises contributes exactly 0: compute over a
rule list containing a failing rule equals compute with that rule removed,
so the base score and every other bonus still apply. -/
theorem compute_failed_rule_isolated (cfg : ScoringConfig)
    (l1 l2 : List CustomRule) (r : CustomRule) (memory : MemRecord) (now : ℚ)
    (hr : r memory = none) :
    compute cfg (l1 ++ r :: l2) memory now = compute cfg (l1 ++ l2) memory now := by
  have hb : bonusOf (l1 ++ r :: l2) memory = bonusOf (l1 ++ l2) memory := by
    unfold bonusOf
    simp [List.foldl_append, hr]
  simp only [compute, hb]

/-- Witness for C8 at a concrete record and an always-raising rule. -/
theorem compute_failed_rule_isolated_witness :
    (fun _ => (none : Option ℚ)) ({ id := 1 } : MemRecord) = none ∧
      compute {} ([] ++ (fun _ => (none : Option ℚ)) :: []) { id := 1 } 0 =
        compute {} ([] ++ []) { id := 1 } 0 :=
  ⟨rfl, compute_failed_rule_isolated {} [] [] _ { id := 1 } 0 rfl⟩

/-- C10: with a nonnegative repetition weight and no custom rules, compute
is monotone non-increasing in the seen_count metadata entry, and any
seen_count of 20 or more drives the repetition component to its minimum 0. -/
theorem compute_antitone_seen_count (cfg : ScoringConfig) (memory : MemRecord)
    (now : ℚ) (s1 s2 : Int) (hw : 0 ≤ cfg.repetition_weight) (h : s1 ≤ s2) :
    compute cfg [] (setSeen memory s2) now ≤ compute cfg [] (setSeen memory s1) now ∧
      (∀ s : Int, 20 ≤ s → 1 - _normalize (s : ℚ) 0 20 = 0) := by
  constructor
  · simp only [compute, setSeen, bonusOf, List.foldl_nil, Option.getD_some]
    apply pyRound_mono
    have hn : _normalize (s1 : ℚ) 0 20 ≤ _normalize (s2 : ℚ) 0 20 :=
      _normalize_mono (by exact_mod_cast h)
    have hrep : cfg.repetition_weight * (1 - _normalize (s2 : ℚ) 0 20) ≤
        cfg.repetition_weight * (1 - _normalize (s1 : ℚ) 0 20) :=
      mul_le_mul_of_nonneg_left (by linarith) hw
    gcongr
  · intro s hs
    unfold _normalize
    have h20 : min (s : ℚ) 20 = 20 := by
      have : (20 : ℚ) ≤ (s : ℚ) := by exact_mod_cast hs
      simp [min_eq_right this]
    rw [if_neg (by norm_num)]
    rw [h20]
    norm_num

/-- Witness for C10 at the default configuration and seen counts 1 and 30. -/
theorem compute_antitone_seen_count_witness :
    0 ≤ ({} : ScoringConfig).repetition_weight ∧ (1 : Int) ≤ 30 ∧
      compute {} [] (setSeen { id := 1 } 30) 0 ≤
        compute {} [] (setSeen { id := 1 } 1) 0 :=
  ⟨by norm_num [ScoringConfig.repetition_weight], by decide,
   (compute_antitone_seen_count {} { id := 1 } 0 1 30 (by norm_num [ScoringConfig.repetition_weight]) (by decide)).1⟩

theorem mem_applyLimit {y : MemRecord} {lim : Option Int} {l : List MemRecord}
    (h : y ∈ applyLimit lim l) : y ∈ l := by
  rcases lim with _ | n
  · exact h
  · unfold applyLimit at h
    have h' : y ∈ (if (n == 0) = true then l else List.take n.toNat l) := h
    split_ifs at h'
    · exact h'
    · exact List.mem_of_mem_take h'

theorem memMatches_summarized_false {u t ti : Option String}
    {mf : Option MetaFilter} {ns : Option String} {rel : Option (List String)}
    {r : MemRecord}
    (h : memMatches u t ti mf ns rel (some false) r = true) :
    r.summarized = none ∨ r.summarized = some 0 := by
  unfold memMatches at h
  simp only [Bool.and_eq_true] at h
  have hs := h.1.2
  simpa using hs

/-- C1: the storage upsert is not keyed — upsert_cluster always INSERTs a
fresh row, so two successive upserts with the identical key return
different cluster ids and leave two rows for that key, and rebuilding
(cluster_and_aggregate) twice duplicates every cluster row.  This
contradicts the repository's own tests (test_idempotent_cluster_upsert)
and the unique index on the cluster key created by the initial alembic
migration. -/
theorem upsert_cluster_duplicates_rows :
    (upsert_cluster {} "billing" "support" [1, 2, 3] "sum" 0).1 = 1 ∧
    (upsert_cluster (upsert_cluster {} "billing" "support" [1, 2, 3] "sum" 0).2
      "billing" "support" [1, 2, 3] "sum" 0).1 = 2 ∧
    (get_clusters (upsert_cluster (upsert_cluster {} "billing" "support"
      [1, 2, 3] "sum" 0).2 "billing" "support" [1, 2, 3] "sum" 0).2
      (some "billing") 100).length = 2 ∧
    ((cluster_and_aggregate stC1 ((cluster_and_aggregate stC1 {} 0).2) 0).2.rows.map
      (fun r => (r.cluster_id, r.topic, r.category, r.memory_ids))) =
      [(1, "general", "general", [1]), (2, "general", "general", [1])] := by
  refine ⟨rfl, rfl, ?_, ?_⟩ <;> decide

/-- C6 (counterexample): search does not raise for an invalid top_k.  A
top_k of 0 silently behaves exactly like an absent top_k (Python
truthiness in limit = top_k or default), and a negative top_k is used as a
slice bound, truncating away the last elements: on a three-record store,
top_k of minus one returns two results instead of failing fast. -/
theorem search_accepts_nonpositive_topk :
    search stC6 {} [] 10 (some "u1") (some "t1") none "thread" none (some 0) 0 =
      search stC6 {} [] 10 (some "u1") (some "t1") none "thread" none none 0 ∧
    (search stC6 {} [] 10 (some "u1") (some "t1") none "thread" none
      (some (-1)) 0).length = 2 := by
  constructor
  · rfl
  · have hlen : (rankedRecords stC6 {} [] (some "u1") (some "t1") none
        "thread" none 0).length = 3 := by
      rw [rankedRecords, length_sortDesc, List.length_map]
      decide
    simp only [search, pyTake]
    norm_num [hlen]

/-- C6 (amended): search never validates top_k.  A zero (like an absent)
top_k falls back to the configured default, and a negative top_k keeps all
but the last elements of the ranked list; no error is produced in either
case. -/
theorem search_topk_fallback (s : Store) (cfg : ScoringConfig)
    (rules : List CustomRule) (dtk : ℤ) (u t : Option String)
    (mf : Option MetaFilter) (sc : String) (ns : Option String) (now : ℚ) :
    search s cfg rules dtk u t mf sc ns (some 0) now =
      search s cfg rules dtk u t mf sc ns none now ∧
    ∀ k : ℤ, k < 0 → search s cfg rules dtk u t mf sc ns (some k) now =
      (rankedRecords s cfg rules u t mf sc ns now).take
        ((rankedRecords s cfg rules u t mf sc ns now).length - (-k).toNat) := by
  constructor
  · rfl
  · intro k hk
    have hk0 : (k == 0) = false := by
      simp [hk.ne]
    have hk1 : ¬ (0 : ℤ) ≤ k := not_le.mpr hk
    simp only [search, pyTake, hk0]
    simp [hk1]

/-- Witness for the amended C6 at a concrete store and top_k of minus one. -/
theorem search_topk_fallback_witness :
    (-1 : ℤ) < 0 ∧
    search stC6 {} [] 10 none none none "user" none (some (-1)) 0 =
      (rankedRecords stC6 {} [] none none none "user" none 0).take
        ((rankedRecords stC6 {} [] none none none "user" none 0).length -
          ((-(-1) : ℤ)).toNat) :=
  ⟨by decide,
   (search_topk_fallback stC6 {} [] 10 none none none "user" none 0).2 (-1)
     (by decide)⟩

/-- C7: once a record id has been marked summarized, a subsequent search
never returns that id, for every owner, thread, scope, metadata filter,
namespace, top_k and scoring configuration — regardless of the score the
record would receive, since the summarized-false storage filter removes it
before ranking. -/
theorem search_excludes_marked_summarized (s : Store) (i : Nat) (tmark : ℚ)
    (cfg : ScoringConfig) (rules : List CustomRule) (dtk : ℤ)
    (u t : Option String) (mf : Option MetaFilter) (sc : String)
    (ns : Option String) (tk : Option ℤ) (now : ℚ) :
    (search (mark_summarized s [i] tmark) cfg rules dtk u t mf sc ns tk
      now).filter (fun p => p.1.id == i) = [] := by
  rw [List.filter_eq_nil_iff]
  intro p hp
  rw [beq_iff_eq]
  show p.1.id ≠ i
  simp only [search] at hp
  have h1 := mem_pyTake hp
  simp only [rankedRecords, get_memories] at h1
  rw [mem_sortDesc] at h1
  rcases List.mem_map.mp h1 with ⟨r, hr, rfl⟩
  have h2 := List.mem_filter.mp (mem_applyLimit hr)
  have hsum := memMatches_summarized_false h2.2
  rcases List.mem_map.mp h2.1 with ⟨r₀, _, rfl⟩
  by_cases hid : r₀.id = i
  · exfalso
    simp [hid] at hsum
  · simp only [hid]
    simp [hid]

theorem keys_insertBucket (bs : List ((String × String) × List Nat))
    (key : String × String) (i : Nat) :
    (insertBucket bs key i).map Prod.fst =
      if key ∈ bs.map Prod.fst then bs.map Prod.fst
      else bs.map Prod.fst ++ [key] := by
  induction bs with
  | nil => simp [insertBucket]
  | cons kv rest ih =>
    obtain ⟨k, v⟩ := kv
    unfold insertBucket
    by_cases hk : k = key
    · subst hk
      simp
    · simp only [hk, if_false, List.map_cons, ih]
      by_cases hmem : key ∈ rest.map Prod.fst
      · simp [hmem, Ne.symm hk]
      · simp [hmem, Ne.symm hk]

theorem nodup_keys_insertBucket {bs : List ((String × String) × List Nat)}
    {key : String × String} {i : Nat}
    (h : (bs.map Prod.fst).Nodup) :
    ((insertBucket bs key i).map Prod.fst).Nodup := by
  rw [keys_insertBucket]
  split_ifs with hmem
  · exact h
  · simp [List.nodup_append, h, hmem]

theorem mem_insertBucket_cases {bs : List ((String × String) × List Nat)}
    {key : String × String} {i : Nat}
    (hnd : (bs.map Prod.fst).Nodup) :
    ∀ kv ∈ insertBucket bs key i,
      (kv ∈ bs ∧ kv.1 ≠ key) ∨
      (kv.1 = key ∧ ∃ v, kv.2 = v ++ [i] ∧
        ((key, v) ∈ bs ∨ (v = [] ∧ key ∉ bs.map Prod.fst))) := by
  induction bs with
  | nil =>
    intro kv hkv
    simp only [insertBucket, List.mem_singleton] at hkv
    subst hkv
    exact Or.inr ⟨rfl, [], rfl, Or.inr ⟨rfl, by simp⟩⟩
  | cons hd rest ih =>
    obtain ⟨k, v⟩ := hd
    intro kv hkv
    simp only [List.map_cons, List.nodup_cons] at hnd
    by_cases hk : k = key
    · subst hk
      simp only [insertBucket, eq_self_iff_true, ite_true, List.mem_cons] at hkv
      rcases hkv with heq | hkv
      · subst heq
        exact Or.inr ⟨rfl, v, rfl, Or.inl (by simp)⟩
      · left
        refine ⟨List.mem_cons_of_mem _ hkv, ?_⟩
        intro hfst
        exact hnd.1 (hfst ▸ List.mem_map_of_mem Prod.fst hkv)
    · simp only [insertBucket, if_neg hk, List.mem_cons] at hkv
      rcases hkv with heq | hkv
      · subst heq
        exact Or.inl ⟨List.mem_cons_self _ _, hk⟩
      · rcases ih hnd.2 kv hkv with ⟨hm, hne⟩ | ⟨hfst, w, hw, hcase⟩
        · exact Or.inl ⟨List.mem_cons_of_mem _ hm, hne⟩
        · refine Or.inr ⟨hfst, w, hw, ?_⟩
          rcases hcase with hm | ⟨hnil, hnm⟩
          · exact Or.inl (List.mem_cons_of_mem _ hm)
          · refine Or.inr ⟨hnil, ?_⟩
            simp only [List.map_cons, List.mem_cons]
            rintro (h1 | h2)
            · exact hk h1.symm
            · exact hnm h2

theorem flat_insertBucket (bs : List ((String × String) × List Nat))
    (key : String × String) (i : Nat) :
    ((insertBucket bs key i).flatMap Prod.snd).Perm
      (bs.flatMap Prod.snd ++ [i]) := by
  induction bs with
  | nil => simp [insertBucket]
  | cons hd rest ih =>
    obtain ⟨k, v⟩ := hd
    unfold insertBucket
    by_cases hk : k = key
    · subst hk
      simp only [eq_self_iff_true, ite_true, List.flatMap_cons]
      have h1 : (v ++ [i]) ++ rest.flatMap Prod.snd =
          v ++ ([i] ++ rest.flatMap Prod.snd) := by simp
      have h2 : (v ++ rest.flatMap Prod.snd) ++ [i] =
          v ++ (rest.flatMap Prod.snd ++ [i]) := by simp
      rw [h1, h2]
      exact (List.perm_append_comm).append_left v
    · rw [if_neg hk]
      simp only [List.flatMap_cons]
      have h2 : (v ++ rest.flatMap Prod.snd) ++ [i] =
          v ++ (rest.flatMap Prod.snd ++ [i]) := by simp
      rw [h2]
      exact ih.append_left v

theorem bucketInv_insert {p : List MemRecord}
    {bs : List ((String × String) × List Nat)} {m : MemRecord}
    (h : BucketInv p bs) :
    BucketInv (p ++ [m]) (insertBucket bs (keyOf m) m.id) := by
  obtain ⟨hnd, hval, hcov⟩ := h
  refine ⟨nodup_keys_insertBucket hnd, ?_, ?_⟩
  · intro kv hkv
    rcases mem_insertBucket_cases hnd kv hkv with ⟨hm, hne⟩ | ⟨hfst, v, hv, hcase⟩
    · rw [List.filter_append]
      have hm2 : (List.filter (fun m' => keyOf m' == kv.1) [m]) = [] := by
        simp only [List.filter_eq_nil_iff]
        intro a ha
        simp only [List.mem_singleton] at ha
        subst ha
        simp [Ne.symm hne]
      rw [hm2, List.append_nil]
      exact hval kv hm
    · rw [hv, hfst, List.filter_append]
      have hm2 : (List.filter (fun m' => keyOf m' == keyOf m) [m]) = [m] := by
        simp
      rw [hm2, List.map_append]
      rcases hcase with hm3 | ⟨hnil, hnm⟩
      · have hv2 : v = (p.filter (fun m' => keyOf m' == keyOf m)).map
            (fun m => m.id) := by
          simpa using hval (keyOf m, v) hm3
        rw [hv2]
        simp
      · subst hnil
        have hfil : (p.filter (fun m' => keyOf m' == keyOf m)) = [] := by
          rw [List.filter_eq_nil_iff]
          intro a ha hbeq
          have heq : keyOf a = keyOf m := by simpa using hbeq
          exact hnm (heq ▸ hcov a ha)
        rw [hfil]
        simp
  · intro m' hm'
    rw [keys_insertBucket]
    rcases List.mem_append.mp hm' with hp | hm1
    · have := hcov m' hp
      split_ifs <;> simp [this]
    · simp only [List.mem_singleton] at hm1
      subst hm1
      split_ifs with hmem
      · exact hmem
      · simp

theorem bucketInv_foldl (ms : List MemRecord) :
    ∀ (p : List MemRecord) (bs), BucketInv p bs →
      BucketInv (p ++ ms)
        (ms.foldl (fun bs m => insertBucket bs (keyOf m) m.id) bs) := by
  induction ms with
  | nil =>
    intro p bs h
    simpa using h
  | cons m ms ih =>
    intro p bs h
    have h2 := ih (p ++ [m]) _ (bucketInv_insert h)
    simpa [List.append_assoc] using h2

theorem flat_foldl (ms : List MemRecord) :
    ∀ bs, (((ms.foldl (fun bs m => insertBucket bs (keyOf m) m.id) bs)).flatMap
        Prod.snd).Perm (bs.flatMap Prod.snd ++ ms.map (fun m => m.id)) := by
  induction ms with
  | nil =>
    intro bs
    simp
  | cons m ms ih =>
    intro bs
    refine (ih (insertBucket bs (keyOf m) m.id)).trans ?_
    refine ((flat_insertBucket bs (keyOf m) m.id).append_right
      (ms.map (fun m => m.id))).trans ?_
    apply List.Perm.of_eq
    simp

theorem bucketInv_bucketsOf (ms : List MemRecord) :
    BucketInv ms (bucketsOf ms) := by
  have h := bucketInv_foldl ms [] [] ⟨by simp, by simp, by simp⟩
  simpa [bucketsOf] using h

theorem group_keys_eq (ms : List MemRecord) :
    (group ms).map (fun c => (c.topic, c.category)) =
      (bucketsOf ms).map Prod.fst := by
  simp only [group, List.map_map]
  rfl

/-- C9: SimpleClustering.group partitions its input: the emitted clusters
carry pairwise-distinct (topic, category) keys; the concatenation of their
member id lists is a permutation of the input ids; each cluster holds
exactly the ids of the records whose lowercased topic and category
(defaulting to general) equal its key; and the owner field of the records
plays no role in group. -/
theorem group_partitions_input (ms : List MemRecord) :
    ((group ms).map (fun c => (c.topic, c.category))).Nodup ∧
    ((group ms).flatMap (fun c => c.memory_ids)).Perm (ms.map (fun m => m.id)) ∧
    (∀ c ∈ group ms, c.memory_ids =
      (ms.filter (fun m => keyOf m == (c.topic, c.category))).map (fun m => m.id)) ∧
    (∀ f : MemRecord → String,
      group (ms.map (fun m => { m with user_id := f m })) = group ms) := by
  obtain ⟨hnd, hval, hcov⟩ := bucketInv_bucketsOf ms
  refine ⟨?_, ?_, ?_, ?_⟩
  · rw [group_keys_eq]
    exact hnd
  · have heq : (group ms).flatMap (fun c => c.memory_ids) =
        (bucketsOf ms).flatMap Prod.snd := by
      simp only [group, List.flatMap_map]
    rw [heq]
    have h1 := flat_foldl ms []
    simpa [bucketsOf] using h1
  · intro c hc
    rcases List.mem_map.mp hc with ⟨kv, hkv, rfl⟩
    simpa using hval kv hkv
  · intro f
    have hstep : ∀ (bs : List ((String × String) × List Nat)) (m : MemRecord),
        insertBucket bs (keyOf { m with user_id := f m })
          ({ m with user_id := f m } : MemRecord).id =
        insertBucket bs (keyOf m) m.id := fun bs m => rfl
    simp [group, bucketsOf, List.foldl_map, hstep]

/-- C5 (counterexample): PolicyExecutor.run is not failure-isolated.  On a
store with one trimmable record and a trimmer that raises, run propagates
the error to the caller instead of returning a partial counts
dictionary — there is no exception handler anywhere in run. -/
theorem run_propagates_error_cx :
    runE cfgC5 failProc okProc none stC5 0 = .error "boom" := by
  rfl

/-- C5 (amended): run has no per-step exception handling: whenever the
first configured tier has an active trim threshold and the trimmer fails
on the first fetched record, the whole run returns that error — the
remaining steps are aborted and no counts are returned. -/
theorem run_no_step_isolation (cfg : Config) (trimmer summarizer : TextProc)
    (user : Option String) (s : Store) (now : ℚ) (e : String)
    (tc : TierCfg) (rest : List TierCfg) (r : MemRecord) (rs : List MemRecord)
    (htiers : cfg.tiers = tc :: rest)
    (hmc : 0 < tc.max_chars)
    (hrecs : get_memories s user none (some tc.name) none none none none
      (some 1000) = r :: rs)
    (htrim : trimmer r.content tc.max_chars = .error e) :
    runE cfg trimmer summarizer user s now = .error e := by
  unfold runE
  rw [htiers]
  simp only [tiersLoop, tierStep, trimPhase, if_pos hmc, hrecs, trimLoop, htrim]

/-- Witness for the amended C5 at the concrete store and failing trimmer. -/
theorem run_no_step_isolation_witness :
    cfgC5.tiers = ({ name := "short_term", max_chars := 5 } : TierCfg) :: [] ∧
    (0 : Int) < ({ name := "short_term", max_chars := 5 } : TierCfg).max_chars ∧
    get_memories stC5 none none (some "short_term") none none none none
      (some 1000) = rowC5 :: [] ∧
    failProc rowC5.content 5 = .error "boom" ∧
    runE cfgC5 failProc okProc none stC5 0 = .error "boom" :=
  ⟨rfl, by decide, by decide, rfl,
   run_no_step_isolation cfgC5 failProc okProc none stC5 0 "boom"
     { name := "short_term", max_chars := 5 } [] rowC5 [] rfl (by decide)
     (by decide) rfl⟩

theorem mark_summarized_get {s : Store} {ids : List Nat} {now : ℚ} {j : Nat}
    {r : MemRecord} (h : s.rows[j]? = some r) (hid : r.id ∈ ids) :
    ∃ r', (mark_summarized s ids now).rows[j]? = some r' ∧
      r'.summarized = some 1 := by
  refine ⟨{ r with summarized := some 1, updated_at := some now }, ?_, rfl⟩
  show (s.rows.map _)[j]? = _
  rw [List.getElem?_map, h]
  simp [hid]

theorem getLast_mark_append (rows : List MemRecord) (nid : Nat)
    (new : MemRecord) (ids : List Nat) (tmark : ℚ) :
    ∃ rnew, (mark_summarized { rows := rows ++ [new], next_id := nid } ids
        tmark).rows.getLast? = some rnew ∧
      rnew.metadata = new.metadata ∧ rnew.thread_id = new.thread_id ∧
      rnew.tier = new.tier := by
  refine ⟨if new.id ∈ ids then
      { new with summarized := some 1, updated_at := some tmark } else new,
    ?_, ?_, ?_, ?_⟩
  · show ((rows ++ [new]).map _).getLast? = _
    rw [List.map_append]
    exact List.getLast?_concat _
  · split_ifs <;> rfl
  · split_ifs <;> rfl
  · split_ifs <;> rfl

/-- C4: thread aggregation is exactly-once and always marks.  For a thread
whose un-summarized long_term member count reaches the minimum of 10, the
aggregation body inserts a new aggregate record (tagged with the
thread_summary marker, in that thread and tier, incrementing the counter
by one) exactly when no such marker record exists yet; when one exists it
inserts nothing and the counter is unchanged; and in both cases every
fetched member is marked summarized. -/
theorem thread_aggregation_exactly_once (summarizer : TextProc) (th : String)
    (now : ℚ) (s s' : Store) (k : Nat)
    (hmin : 10 ≤ (threadMembers s th).length)
    (hok : threadStepOne summarizer th now s = .ok (s', k)) :
    (threadExisting s th ≠ [] → k = 0 ∧ s'.rows.length = s.rows.length) ∧
    (threadExisting s th = [] → k = 1 ∧
      s'.rows.length = s.rows.length + 1 ∧
      ∃ rnew, s'.rows.getLast? = some rnew ∧
        rnew.metadata = some { kind := some "thread_summary" } ∧
        rnew.thread_id = some th ∧ rnew.tier = some "long_term") ∧
    (∀ (j : Nat) (r : MemRecord), s.rows[j]? = some r →
      r.id ∈ (threadMembers s th).map (fun m => m.id) →
      ∃ r', s'.rows[j]? = some r' ∧ r'.summarized = some 1) := by
  unfold threadStepOne at hok
  split at hok
  · rename_i hm
    rw [hm] at hmin
    simp at hmin
  · rename_i r0 rest hm
    rw [if_pos (by rw [hm] at hmin; exact hmin)] at hok
    by_cases hex : (threadExisting s th).isEmpty = true
    · rw [if_pos hex] at hok
      split at hok
      · exact absurd hok (by simp)
      · rename_i txt hsum
        rw [Except.ok.injEq, Prod.mk.injEq] at hok
        obtain ⟨hs', hk⟩ := hok
        subst hs'
        refine ⟨?_, ?_, ?_⟩
        · intro hne
          exact absurd (List.isEmpty_iff.mp hex) hne
        · intro _
          refine ⟨hk.symm, ?_, ?_⟩
          · show ((_ : List MemRecord).map _).length = _
            simp [insert_memory]
          · exact getLast_mark_append s.rows (s.next_id + 1)
              { id := s.next_id, user_id := r0.user_id, nspace := none,
                thread_id := some th, content := txt, tier := some "long_term",
                score := none,
                metadata := some { kind := some "thread_summary" },
                related_threads := [], summarized := none,
                created_at := some now, updated_at := some now }
              ((r0 :: rest).map (fun m => m.id)) now
        · intro j r hj hid
          rw [hm] at hid
          apply mark_summarized_get _ (by simpa using hid)
          show ((s.rows ++ _) : List MemRecord)[j]? = some r
          rw [List.getElem?_append, if_pos]
          · exact hj
          · exact (List.getElem?_eq_some.mp hj).1
    · rw [if_neg hex] at hok
      rw [Except.ok.injEq, Prod.mk.injEq] at hok
      obtain ⟨hs', hk⟩ := hok
      subst hs'
      refine ⟨?_, ?_, ?_⟩
      · intro _
        refine ⟨hk.symm, ?_⟩
        show ((_ : List MemRecord).map _).length = _
        simp
      · intro hnil
        exact absurd (List.isEmpty_iff.mpr hnil) hex
      · intro j r hj hid
        rw [hm] at hid
        exact mark_summarized_get hj (by simpa using hid)

/-- Witness for C4 at a concrete ten-record thread with the no-op
summarizer: the aggregate is created, counted once, and the members are
marked. -/
theorem thread_aggregation_exactly_once_witness :
    10 ≤ (threadMembers stC4 "t1").length ∧
    threadStepOne okProc "t1" 7 stC4 = .ok (c4s, 1) ∧
    (threadExisting stC4 "t1" = [] →
      (1 : Nat) = 1 ∧ c4s.rows.length = stC4.rows.length + 1 ∧
      ∃ rnew, c4s.rows.getLast? = some rnew ∧
        rnew.metadata = some { kind := some "thread_summary" } ∧
        rnew.thread_id = some "t1" ∧ rnew.tier = some "long_term") :=
  ⟨by decide, rfl,
   (thread_aggregation_exactly_once okProc "t1" 7 stC4 c4s 1 (by decide) rfl).2.1⟩

theorem rowReach_refl (cfg : Config) (now : ℚ) (r : MemRecord) :
    RowReach cfg now r r := Or.inl rfl

theorem rowReach_trans {cfg : Config} {now : ℚ} {a b c : MemRecord}
    (h1 : RowReach cfg now a b) (h2 : RowReach cfg now b c) :
    RowReach cfg now a c := by
  rcases h1 with rfl | h1 | h1
  · exact h2
  · rcases h2 with rfl | h2 | h2
    · exact Or.inr (Or.inl h1)
    · exact Or.inr (Or.inl ⟨h2.1.trans h1.1, h2.2.1, h2.2.2.trans h1.2.2⟩)
    · exfalso
      obtain ⟨u, hu, hlt⟩ := h2.2.2.1
      rw [h1.2.1] at hu
      injection hu with hv
      rw [← hv] at hlt
      linarith
  · rcases h2 with rfl | h2 | h2
    · exact Or.inr (Or.inr h1)
    · refine Or.inr (Or.inr ⟨h2.1.trans h1.1, h2.2.1, h1.2.2.1, ?_⟩)
      obtain ⟨name, next, ht, hn, ht'⟩ := h1.2.2.2
      exact ⟨name, next, ht, hn, h2.2.2.trans ht'⟩
    · exfalso
      obtain ⟨u, hu, hlt⟩ := h2.2.2.1
      rw [h1.2.1] at hu
      injection hu with hv
      rw [← hv] at hlt
      linarith

theorem rowsReach_refl (cfg : Config) (now : ℚ) (s : Store) :
    RowsReach cfg now s s :=
  ⟨le_rfl, fun _ r hj => ⟨r, hj, rowReach_refl cfg now r⟩⟩

theorem rowsReach_trans {cfg : Config} {now : ℚ} {s1 s2 s3 : Store}
    (h1 : RowsReach cfg now s1 s2) (h2 : RowsReach cfg now s2 s3) :
    RowsReach cfg now s1 s3 := by
  refine ⟨h1.1.trans h2.1, fun j r hj => ?_⟩
  obtain ⟨r2, hj2, hr2⟩ := h1.2 j r hj
  obtain ⟨r3, hj3, hr3⟩ := h2.2 j r2 hj2
  exact ⟨r3, hj3, rowReach_trans hr2 hr3⟩

theorem rowsReach_map {cfg : Config} {now : ℚ} (s : Store)
    (f : MemRecord → MemRecord)
    (hf : ∀ r ∈ s.rows, RowReach cfg now r (f r)) :
    RowsReach cfg now s { s with rows := s.rows.map f } := by
  refine ⟨by simp, fun j r hj => ?_⟩
  refine ⟨f r, ?_, hf r (List.getElem?_mem hj)⟩
  show (s.rows.map f)[j]? = some (f r)
  rw [List.getElem?_map, hj]
  rfl

theorem rowsReach_append (cfg : Config) (now : ℚ) (s : Store)
    (ext : List MemRecord) (nid : Nat) :
    RowsReach cfg now s { rows := s.rows ++ ext, next_id := nid } := by
  refine ⟨by simp, fun j r hj => ?_⟩
  refine ⟨r, ?_, rowReach_refl cfg now r⟩
  show (s.rows ++ ext)[j]? = some r
  rw [List.getElem?_append, if_pos (List.getElem?_eq_some.mp hj).1]
  exact hj

theorem storeInv_map {s : Store} (f : MemRecord → MemRecord)
    (hid : ∀ r, (f r).id = r.id) (h : StoreInv s) :
    StoreInv { s with rows := s.rows.map f } := by
  obtain ⟨hnd, hfresh⟩ := h
  constructor
  · have : (s.rows.map f).map (fun r => r.id) = s.rows.map (fun r => r.id) := by
      rw [List.map_map]
      exact List.map_congr_left (fun r _ => hid r)
    rw [this]
    exact hnd
  · intro r hr
    rcases List.mem_map.mp hr with ⟨r₀, hr₀, rfl⟩
    rw [hid r₀]
    exact hfresh r₀ hr₀

theorem update_content_reach (cfg : Config) (now : ℚ) (s : Store)
    (mid : Nat) (c : String) :
    RowsReach cfg now s (update_content s mid c now) := by
  apply rowsReach_map
  intro r _
  by_cases h : (r.id == mid) = true
  · right
    left
    refine ⟨?_, ?_, ?_⟩ <;> simp [h]
  · left
    simp [h]

theorem mark_summarized_reach (cfg : Config) (now : ℚ) (s : Store)
    (ids : List Nat) :
    RowsReach cfg now s (mark_summarized s ids now) := by
  apply rowsReach_map
  intro r _
  by_cases h : r.id ∈ ids
  · right
    left
    refine ⟨?_, ?_, ?_⟩ <;> simp [h]
  · left
    simp [h]

theorem update_content_inv {s : Store} (mid : Nat) (c : String) (now : ℚ)
    (h : StoreInv s) : StoreInv (update_content s mid c now) := by
  apply storeInv_map _ _ h
  intro r
  by_cases hr : (r.id == mid) = true <;> simp [hr]

theorem mark_summarized_inv {s : Store} (ids : List Nat) (now : ℚ)
    (h : StoreInv s) : StoreInv (mark_summarized s ids now) := by
  apply storeInv_map _ _ h
  intro r
  by_cases hr : r.id ∈ ids <;> simp [hr]

theorem update_tier_inv {s : Store} (ids : List Nat) (t : String) (now : ℚ)
    (h : StoreInv s) : StoreInv (update_tier s ids t now) := by
  apply storeInv_map _ _ h
  intro r
  by_cases hr : r.id ∈ ids <;> simp [hr]

theorem insert_memory_inv {s : Store} (uid c : String)
    (tid tier : Option String) (score : Option Int) (md : Option Metadata)
    (ns : Option String) (now : ℚ) (h : StoreInv s) :
    StoreInv (insert_memory s uid c tid tier score md ns now).2 := by
  obtain ⟨hnd, hfresh⟩ := h
  unfold insert_memory StoreInv
  constructor
  · rw [List.map_append, List.nodup_append]
    refine ⟨hnd, by simp, ?_⟩
    intro x hx
    rcases List.mem_map.mp hx with ⟨r, hr, rfl⟩
    simp only [List.map_cons, List.map_nil, List.mem_singleton]
    intro hcontra
    exact absurd hcontra (by exact (Nat.ne_of_lt (hfresh r hr)))
  · intro r hr
    rcases List.mem_append.mp hr with hr | hr
    · exact (hfresh r hr).trans (Nat.lt_succ_self _)
    · simp only [List.mem_singleton] at hr
      subst hr
      exact Nat.lt_succ_self _

theorem applyLimit_sublist (lim : Option Int) (l : List MemRecord) :
    (applyLimit lim l).Sublist l := by
  rcases lim with _ | n
  · exact List.Sublist.refl l
  · show (if (n == 0) = true then l else List.take n.toNat l).Sublist l
    split_ifs
    · exact List.Sublist.refl l
    · exact List.take_sublist _ _

theorem find_older_sublist (s : Store) (user : Option String) (days : Int)
    (ft : Option String) (lim : Option Int) (now : ℚ) :
    (find_older_than s user days ft lim now).Sublist s.rows := by
  unfold find_older_than
  exact (applyLimit_sublist _ _).trans (List.filter_sublist _)

theorem find_older_spec {s : Store} {user : Option String} {days : Int}
    {name : String} {lim : Option Int} {now : ℚ} {r : MemRecord}
    (hname : name ≠ "")
    (hr : r ∈ find_older_than s user days (some name) lim now) :
    r ∈ s.rows ∧ (∃ u, r.updated_at = some u ∧ u < now - (days : ℚ) * 86400) ∧
      r.tier = some name := by
  unfold find_older_than at hr
  have h2 := List.mem_filter.mp (mem_applyLimit hr)
  have hb := h2.2
  simp only [Bool.and_eq_true] at hb
  have htrue : strTruthy (some name) = true := by
    simp [strTruthy, hname]
  refine ⟨h2.1, ?_, ?_⟩
  · have hu := hb.1.1
    cases hud : r.updated_at with
    | none =>
      rw [hud] at hu
      simp at hu
    | some u =>
      rw [hud] at hu
      refine ⟨u, rfl, ?_⟩
      simpa using hu
  · have ht := hb.1.2
    rw [if_pos htrue] at ht
    simpa using ht

theorem mem_order_of_next_tier {cfg : Config} {name tgt : String}
    (h : _next_tier cfg name = some tgt) :
    name ∈ _get_tier_order cfg ∧ tgt ∈ _get_tier_order cfg := by
  simp only [_next_tier] at h
  split_ifs at h with hc
  · exact ⟨List.mem_of_elem_eq_true hc, List.getElem?_mem h⟩

theorem order_mem_ne_empty {cfg : Config} {x : String}
    (h : x ∈ _get_tier_order cfg) : x ≠ "" := by
  unfold _get_tier_order at h
  have := List.of_mem_filter h
  simpa using this

/-- The successor produced by _next_tier is the entry immediately after
the current name in the configured tier order. -/
theorem next_tier_succ {cfg : Config} {name tgt : String}
    (h : _next_tier cfg name = some tgt) :
    ∃ i, (_get_tier_order cfg)[i]? = some name ∧
      (_get_tier_order cfg)[i + 1]? = some tgt := by
  simp only [_next_tier] at h
  split_ifs at h with hc
  · have hmem : name ∈ _get_tier_order cfg := List.mem_of_elem_eq_true hc
    have hlt : List.indexOf name (_get_tier_order cfg) <
        (_get_tier_order cfg).length := List.indexOf_lt_length.mpr hmem
    refine ⟨List.indexOf name (_get_tier_order cfg), ?_, h⟩
    rw [List.getElem?_eq_getElem hlt, List.getElem_indexOf hlt]

theorem next_tier_ne {cfg : Config} {name tgt : String}
    (hord : (_get_tier_order cfg).Nodup)
    (h : _next_tier cfg name = some tgt) : name ≠ tgt := by
  obtain ⟨i, hi, hi1⟩ := next_tier_succ h
  intro heq
  subst heq
  have h1 := (List.getElem?_eq_some.mp hi).1
  have h2 := (List.getElem?_eq_some.mp hi1).1
  have e1 : (_get_tier_order cfg)[i] = name := (List.getElem?_eq_some.mp hi).2
  have e2 : (_get_tier_order cfg)[i + 1] = name := (List.getElem?_eq_some.mp hi1).2
  have hij : i = i + 1 := by
    have hinj := List.nodup_iff_injective_get.mp hord
    have hget : (_get_tier_order cfg).get ⟨i, h1⟩ =
        (_get_tier_order cfg).get ⟨i + 1, h2⟩ := by
      simp [List.get_eq_getElem, e1, e2]
    have hfin := hinj hget
    simpa using congrArg Fin.val hfin
  omega

/-- Shape of the migrate step: either it leaves the store untouched with a
zero count, or the tier has a positive expiry and a configured successor
and the step batch-updates the due records, returning the batch size. -/
theorem migratePhase_cases (cfg : Config) (user : Option String)
    (name : String) (days : Int) (now : ℚ) (s : Store) :
    migratePhase cfg user name days now s = (s, 0) ∨
    (0 < days ∧ ∃ tgt, _next_tier cfg name = some tgt ∧ tgt ≠ "" ∧
      (find_older_than s user days (some name) (some 1000) now).map
        (fun r => r.id) ≠ [] ∧
      migratePhase cfg user name days now s =
        (update_tier s ((find_older_than s user days (some name) (some 1000)
            now).map (fun r => r.id)) tgt now,
         ((find_older_than s user days (some name) (some 1000) now).map
            (fun r => r.id)).length)) := by
  by_cases hd : days > 0
  · rcases hnt : _next_tier cfg name with _ | tgt
    · left
      unfold migratePhase
      rw [if_pos hd, hnt]
    · by_cases htne : tgt = ""
      · left
        unfold migratePhase
        rw [if_pos hd, hnt]
        simp [htne]
      · by_cases hne : (find_older_than s user days (some name) (some 1000)
            now).map (fun r => r.id) = []
        · left
          unfold migratePhase
          rw [if_pos hd, hnt]
          simp [htne, hne]
        · right
          exact ⟨hd, tgt, rfl, htne, hne, by
            unfold migratePhase
            rw [if_pos hd, hnt]
            simp [htne, hne]⟩
  · left
    unfold migratePhase
    rw [if_neg hd]

theorem mem_of_id_mem_sublist {s : Store} (hInv : StoreInv s)
    {ol : List MemRecord} (hs : ol.Sublist s.rows) {r : MemRecord}
    (hr : r ∈ s.rows) (hid : r.id ∈ ol.map (fun r => r.id)) : r ∈ ol := by
  rcases List.mem_map.mp hid with ⟨r₁, hr₁, hideq⟩
  have heq : r₁ = r := List.inj_on_of_nodup_map hInv.1 (hs.subset hr₁) hr hideq
  exact heq ▸ hr₁

theorem migratePhase_reach (cfg : Config) (user : Option String)
    (name : String) (days : Int) (now : ℚ) (s : Store) (hInv : StoreInv s) :
    RowsReach cfg now s (migratePhase cfg user name days now s).1 := by
  rcases migratePhase_cases cfg user name days now s with heq |
    ⟨hd, tgt, hnt, htne, hne, heq⟩
  · rw [heq]
    exact rowsReach_refl cfg now s
  · rw [heq]
    apply rowsReach_map
    intro r hr
    by_cases hid : r.id ∈ (find_older_than s user days (some name) (some 1000)
        now).map (fun r => r.id)
    · right
      right
      have hro : r ∈ find_older_than s user days (some name) (some 1000) now :=
        mem_of_id_mem_sublist hInv (find_older_sublist s user days (some name)
          (some 1000) now) hr hid
      have hname : name ≠ "" :=
        order_mem_ne_empty (mem_order_of_next_tier hnt).1
      obtain ⟨-, ⟨u, hu, hult⟩, htier⟩ := find_older_spec hname hro
      refine ⟨by simp [hid], by simp [hid], ⟨u, hu, ?_⟩,
        name, tgt, htier, hnt, by simp [hid]⟩
      have hdq : (1 : ℚ) ≤ (days : ℚ) := by exact_mod_cast hd
      nlinarith
    · left
      simp [hid]

theorem migratePhase_inv (cfg : Config) (user : Option String)
    (name : String) (days : Int) (now : ℚ) (s : Store) (hInv : StoreInv s) :
    StoreInv (migratePhase cfg user name days now s).1 := by
  rcases migratePhase_cases cfg user name days now s with heq |
    ⟨-, tgt, -, -, -, heq⟩ <;> rw [heq]
  · exact hInv
  · exact update_tier_inv _ _ _ hInv

theorem changedTiers_self (l : List MemRecord) : changedTiers l l = 0 := by
  induction l with
  | nil => rfl
  | cons a l ih =>
    unfold changedTiers at ih ⊢
    simpa using ih

theorem changedTiers_map (f : MemRecord → MemRecord) (l : List MemRecord) :
    changedTiers l (l.map f) =
      (l.filter (fun r => !(r.tier == (f r).tier))).length := by
  induction l with
  | nil => rfl
  | cons a l ih =>
    unfold changedTiers at ih ⊢
    simp only [List.map_cons, List.zip_cons_cons, List.filter_cons]
    by_cases h : (!(a.tier == (f a).tier)) = true
    · simp only [h, if_pos]
      simp [ih]
    · simp only [Bool.not_eq_true] at h
      simp [h, ih]

theorem filter_id_sublist :
    ∀ {l ol : List MemRecord}, ol.Sublist l →
      (l.map (fun r => r.id)).Nodup →
      l.filter (fun r => decide (r.id ∈ ol.map (fun r => r.id))) = ol := by
  intro l ol hs
  induction hs with
  | slnil =>
    intro _
    rfl
  | @cons l₁ l₂ a hs ih =>
    intro hnd
    simp only [List.map_cons, List.nodup_cons] at hnd
    rw [List.filter_cons]
    have hpa : (decide (a.id ∈ l₁.map (fun r => r.id))) = false := by
      rw [decide_eq_false_iff_not]
      intro hmem
      rcases List.mem_map.mp hmem with ⟨r₁, hr₁, hideq⟩
      exact hnd.1 (hideq ▸ List.mem_map_of_mem (fun r => r.id) (hs.subset hr₁))
    rw [if_neg (by rw [hpa]; exact Bool.false_ne_true)]
    exact ih hnd.2
  | @cons₂ l₁ l₂ a hs ih =>
    intro hnd
    simp only [List.map_cons, List.nodup_cons] at hnd
    rw [List.filter_cons]
    rw [if_pos (by simp)]
    congr 1
    have hcong : ∀ r ∈ l₂,
        (decide (r.id ∈ (a :: l₁).map (fun r => r.id))) =
          (decide (r.id ∈ l₁.map (fun r => r.id))) := by
      intro r hr
      have hne : r.id ≠ a.id := by
        intro hcontra
        exact hnd.1 (hcontra ▸ List.mem_map_of_mem (fun r => r.id) hr)
      simp [hne]
    rw [List.filter_congr hcong]
    exact ih hnd.2

theorem migratePhase_counter (cfg : Config) (user : Option String)
    (name : String) (days : Int) (now : ℚ) (s : Store) (hInv : StoreInv s)
    (hord : (_get_tier_order cfg).Nodup) :
    (migratePhase cfg user name days now s).2 =
      changedTiers s.rows (migratePhase cfg user name days now s).1.rows := by
  rcases migratePhase_cases cfg user name days now s with heq |
    ⟨hd, tgt, hnt, htne, hne, heq⟩
  · rw [heq]
    exact (changedTiers_self s.rows).symm
  · rw [heq]
    show ((find_older_than s user days (some name) (some 1000) now).map
      (fun r => r.id)).length = changedTiers s.rows (s.rows.map _)
    rw [changedTiers_map]
    have hname : name ≠ "" := order_mem_ne_empty (mem_order_of_next_tier hnt).1
    have hneq : name ≠ tgt := next_tier_ne hord hnt
    have hcong : ∀ r ∈ s.rows,
        (!(r.tier == (if r.id ∈ (find_older_than s user days (some name)
            (some 1000) now).map (fun r => r.id) then
          { r with tier := some tgt, updated_at := some now } else r).tier)) =
        (decide (r.id ∈ (find_older_than s user days (some name) (some 1000)
          now).map (fun r => r.id))) := by
      intro r hr
      by_cases hid : r.id ∈ (find_older_than s user days (some name)
          (some 1000) now).map (fun r => r.id)
      · have hro : r ∈ find_older_than s user days (some name) (some 1000)
            now := mem_of_id_mem_sublist hInv (find_older_sublist s user days
          (some name) (some 1000) now) hr hid
        obtain ⟨-, -, htier⟩ := find_older_spec hname hro
        simp [hid, htier, hneq]
      · simp [hid]
    rw [List.filter_congr hcong,
      filter_id_sublist (find_older_sublist s user days (some name)
        (some 1000) now) hInv.1]
    simp

theorem trimLoop_ok {cfg : Config} (trimmer : TextProc) (maxc : Int) (now : ℚ) :
    ∀ (recs : List MemRecord) (s : Store) (k : Nat) (s' : Store) (k' : Nat),
      trimLoop trimmer maxc now recs s k = .ok (s', k') → StoreInv s →
      StoreInv s' ∧ RowsReach cfg now s s' := by
  intro recs
  induction recs with
  | nil =>
    intro s k s' k' h hInv
    unfold trimLoop at h
    rw [Except.ok.injEq, Prod.mk.injEq] at h
    obtain ⟨h1, -⟩ := h
    subst h1
    exact ⟨hInv, rowsReach_refl cfg now s⟩
  | cons r rs ih =>
    intro s k s' k' h hInv
    unfold trimLoop at h
    split at h
    · exact absurd h (by simp)
    · rename_i t ht
      split_ifs at h with hne
      · have hrec := ih _ _ _ _ h (update_content_inv _ _ _ hInv)
        exact ⟨hrec.1,
          rowsReach_trans (update_content_reach cfg now s r.id t) hrec.2⟩
      · exact ih _ _ _ _ h hInv

theorem trimPhase_ok {cfg : Config} (trimmer : TextProc) (user : Option String)
    (name : String) (maxc : Int) (now : ℚ) (s s' : Store) (k : Nat)
    (h : trimPhase trimmer user name maxc now s = .ok (s', k))
    (hInv : StoreInv s) : StoreInv s' ∧ RowsReach cfg now s s' := by
  unfold trimPhase at h
  split_ifs at h with hmc
  · exact trimLoop_ok trimmer maxc now _ s 0 s' k h hInv
  · rw [Except.ok.injEq, Prod.mk.injEq] at h
    obtain ⟨h1, -⟩ := h
    subst h1
    exact ⟨hInv, rowsReach_refl cfg now s⟩

theorem tierStep_ok (cfg : Config) (trimmer : TextProc) (user : Option String)
    (now : ℚ) (sc : Store × Counts) (tc : TierCfg) (sc' : Store × Counts)
    (h : tierStep cfg trimmer user now sc tc = .ok sc')
    (hInv : StoreInv sc.1) : StoreInv sc'.1 ∧ RowsReach cfg now sc.1 sc'.1 := by
  unfold tierStep at h
  split at h
  · exact absurd h (by simp)
  · rename_i s1 k1 htrim
    rw [Except.ok.injEq] at h
    subst h
    have h1 := @trimPhase_ok cfg trimmer user tc.name tc.max_chars now
      sc.1 s1 k1 htrim hInv
    exact ⟨migratePhase_inv cfg user tc.name tc.expiry_days now s1 h1.1,
      rowsReach_trans h1.2
        (migratePhase_reach cfg user tc.name tc.expiry_days now s1 h1.1)⟩

theorem tiersLoop_ok (cfg : Config) (trimmer : TextProc) (user : Option String)
    (now : ℚ) :
    ∀ (tiers : List TierCfg) (sc sc' : Store × Counts),
      tiersLoop cfg trimmer user now tiers sc = .ok sc' → StoreInv sc.1 →
      StoreInv sc'.1 ∧ RowsReach cfg now sc.1 sc'.1 := by
  intro tiers
  induction tiers with
  | nil =>
    intro sc sc' h hInv
    unfold tiersLoop at h
    rw [Except.ok.injEq] at h
    subst h
    exact ⟨hInv, rowsReach_refl cfg now sc.1⟩
  | cons tc rest ih =>
    intro sc sc' h hInv
    unfold tiersLoop at h
    split at h
    · exact absurd h (by simp)
    · rename_i sc1 hstep
      have h1 := tierStep_ok cfg trimmer user now sc tc sc1 hstep hInv
      have h2 := ih sc1 sc' h h1.1
      exact ⟨h2.1, rowsReach_trans h1.2 h2.2⟩

theorem sumLoop_ok {cfg : Config} (summarizer : TextProc)
    (minc tgtc : Int) (mark_sum : Bool) (now : ℚ) :
    ∀ (recs : List MemRecord) (s : Store) (k : Nat) (s' : Store) (k' : Nat),
      sumLoop summarizer minc tgtc mark_sum now recs s k = .ok (s', k') →
      StoreInv s → StoreInv s' ∧ RowsReach cfg now s s' := by
  intro recs
  induction recs with
  | nil =>
    intro s k s' k' h hInv
    unfold sumLoop at h
    rw [Except.ok.injEq, Prod.mk.injEq] at h
    obtain ⟨h1, -⟩ := h
    subst h1
    exact ⟨hInv, rowsReach_refl cfg now s⟩
  | cons r rs ih =>
    intro s k s' k' h hInv
    unfold sumLoop at h
    by_cases hlen : (r.content.length : Int) ≥ minc
    · rw [if_pos hlen] at h
      split at h
      · exact absurd h (by simp)
      · rename_i t ht
        by_cases hne : t ≠ r.content
        · rw [if_pos hne] at h
          by_cases hmark : mark_sum = true
          · rw [if_pos hmark] at h
            have hrec := ih _ _ _ _ h
              (mark_summarized_inv _ _ (update_content_inv _ _ _ hInv))
            exact ⟨hrec.1,
              rowsReach_trans (update_content_reach cfg now s r.id t)
                (rowsReach_trans (mark_summarized_reach cfg now _ _) hrec.2)⟩
          · rw [if_neg hmark] at h
            have hrec := ih _ _ _ _ h (update_content_inv _ _ _ hInv)
            exact ⟨hrec.1,
              rowsReach_trans (update_content_reach cfg now s r.id t) hrec.2⟩
        · rw [if_neg hne] at h
          exact ih _ _ _ _ h hInv
    · rw [if_neg hlen] at h
      exact ih _ _ _ _ h hInv

theorem summarizePhase_ok {cfg : Config} (summarizer : TextProc)
    (user : Option String) (now : ℚ) (s s' : Store) (k : Nat)
    (h : summarizePhase cfg summarizer user now s = .ok (s', k))
    (hInv : StoreInv s) : StoreInv s' ∧ RowsReach cfg now s s' := by
  unfold summarizePhase at h
  split_ifs at h with hen
  · exact sumLoop_ok summarizer _ _ _ now _ s 0 s' k h hInv
  · rw [Except.ok.injEq, Prod.mk.injEq] at h
    obtain ⟨h1, -⟩ := h
    subst h1
    exact ⟨hInv, rowsReach_refl cfg now s⟩

theorem threadStepOne_ok {cfg : Config} (summarizer : TextProc) (th : String)
    (now : ℚ) (s s' : Store) (k : Nat)
    (h : threadStepOne summarizer th now s = .ok (s', k))
    (hInv : StoreInv s) : StoreInv s' ∧ RowsReach cfg now s s' := by
  unfold threadStepOne at h
  split at h
  · rw [Except.ok.injEq, Prod.mk.injEq] at h
    obtain ⟨h1, -⟩ := h
    subst h1
    exact ⟨hInv, rowsReach_refl cfg now s⟩
  · rename_i r0 rest hm
    split_ifs at h with hlen hex
    · split at h
      · exact absurd h (by simp)
      · rename_i t ht
        rw [Except.ok.injEq, Prod.mk.injEq] at h
        obtain ⟨h1, -⟩ := h
        subst h1
        refine ⟨mark_summarized_inv _ _ (insert_memory_inv _ _ _ _ _ _ _ _ hInv), ?_⟩
        refine rowsReach_trans ?_ (mark_summarized_reach cfg now _ _)
        exact rowsReach_append cfg now s _ _
    · rw [Except.ok.injEq, Prod.mk.injEq] at h
      obtain ⟨h1, -⟩ := h
      subst h1
      exact ⟨mark_summarized_inv _ _ hInv, mark_summarized_reach cfg now s _⟩
    · rw [Except.ok.injEq, Prod.mk.injEq] at h
      obtain ⟨h1, -⟩ := h
      subst h1
      exact ⟨hInv, rowsReach_refl cfg now s⟩

theorem threadLoop_ok {cfg : Config} (summarizer : TextProc) (now : ℚ) :
    ∀ (ths : List String) (s : Store) (k : Nat) (s' : Store) (k' : Nat),
      threadLoop summarizer now ths s k = .ok (s', k') → StoreInv s →
      StoreInv s' ∧ RowsReach cfg now s s' := by
  intro ths
  induction ths with
  | nil =>
    intro s k s' k' h hInv
    unfold threadLoop at h
    rw [Except.ok.injEq, Prod.mk.injEq] at h
    obtain ⟨h1, -⟩ := h
    subst h1
    exact ⟨hInv, rowsReach_refl cfg now s⟩
  | cons th ths ih =>
    intro s k s' k' h hInv
    unfold threadLoop at h
    split at h
    · exact absurd h (by simp)
    · rename_i s1 d hone
      have h1 := @threadStepOne_ok cfg summarizer th now s s1 d hone hInv
      have h2 := ih _ _ _ _ h h1.1
      exact ⟨h2.1, rowsReach_trans h1.2 h2.2⟩

theorem runE_ok (cfg : Config) (trimmer summarizer : TextProc)
    (user : Option String) (s : Store) (now : ℚ) (s' : Store) (c : Counts)
    (h : runE cfg trimmer summarizer user s now = .ok (s', c))
    (hInv : StoreInv s) : StoreInv s' ∧ RowsReach cfg now s s' := by
  unfold runE at h
  split at h
  · exact absurd h (by simp)
  · rename_i sc htl
    split at h
    · exact absurd h (by simp)
    · rename_i s2 nsum hsp
      split at h
      · exact absurd h (by simp)
      · rename_i s3 nth htp
        rw [Except.ok.injEq, Prod.mk.injEq] at h
        obtain ⟨h1, -⟩ := h
        subst h1
        have ha := tiersLoop_ok cfg trimmer user now cfg.tiers (s, {}) sc htl hInv
        have hb := summarizePhase_ok summarizer user now sc.1 s2 nsum hsp ha.1
        have hc := @threadLoop_ok cfg summarizer now _ s2 0 s3 nth htp hb.1
        exact ⟨hc.1, rowsReach_trans ha.2 (rowsReach_trans hb.2 hc.2)⟩

/-- C3: tier progression is strictly forward.  Across a whole policy run,
every pre-existing record either keeps its tier or moves to exactly the
immediate successor of its previous tier in the configured order (so no
record moves backward or skips a tier); the successor produced by
_next_tier is the next entry of the configured order; a tier without a
successor is a migration no-op; and each migration event adds exactly the
size of its batch — the number of rows whose tier it changed — to the
migrated counter. -/
theorem run_migrates_one_step (cfg : Config) (trimmer summarizer : TextProc)
    (user : Option String) (s : Store) (now : ℚ) (s' : Store) (c : Counts)
    (hInv : StoreInv s) (hord : (_get_tier_order cfg).Nodup)
    (hrun : runE cfg trimmer summarizer user s now = .ok (s', c)) :
    (∀ (j : Nat) (r r' : MemRecord), s.rows[j]? = some r →
      s'.rows[j]? = some r' →
      r'.id = r.id ∧ (r'.tier = r.tier ∨ ∃ name next, r.tier = some name ∧
        _next_tier cfg name = some next ∧ r'.tier = some next)) ∧
    (∀ name next, _next_tier cfg name = some next →
      ∃ i, (_get_tier_order cfg)[i]? = some name ∧
        (_get_tier_order cfg)[i + 1]? = some next) ∧
    (∀ (uid : Option String) (nm : String) (days : Int) (s₀ : Store),
      StoreInv s₀ →
      (_next_tier cfg nm = none → migratePhase cfg uid nm days now s₀ = (s₀, 0)) ∧
      (migratePhase cfg uid nm days now s₀).2 =
        changedTiers s₀.rows (migratePhase cfg uid nm days now s₀).1.rows) := by
  refine ⟨?_, fun name next h => next_tier_succ h,
    fun uid nm days s₀ h₀ => ⟨fun hnone => ?_,
      migratePhase_counter cfg uid nm days now s₀ h₀ hord⟩⟩
  · intro j r r' hj hj'
    obtain ⟨-, hreach⟩ := runE_ok cfg trimmer summarizer user s now s' c hrun hInv
    obtain ⟨r'', hj'', hrr⟩ := hreach.2 j r hj
    have hre : r'' = r' := by
      rw [hj'] at hj''
      exact (Option.some.inj hj'').symm
    subst hre
    rcases hrr with rfl | ht | hm
    · exact ⟨rfl, Or.inl rfl⟩
    · exact ⟨ht.1, Or.inl ht.2.2⟩
    · exact ⟨hm.1, Or.inr hm.2.2.2⟩
  · rcases migratePhase_cases cfg uid nm days now s₀ with heq |
      ⟨-, tgt, hnt, -, -, -⟩
    · exact heq
    · rw [hnone] at hnt
      cases hnt

/-- Witness for C3 at a concrete store and a three-tier configuration with
the no-op processors. -/
theorem run_migrates_one_step_witness :
    StoreInv stC1 ∧ (_get_tier_order cfgW).Nodup ∧
    runE cfgW okProc okProc none stC1 0 = .ok (stC1, cW) ∧
    (∀ name next, _next_tier cfgW name = some next →
      ∃ i, (_get_tier_order cfgW)[i]? = some name ∧
        (_get_tier_order cfgW)[i + 1]? = some next) :=
  ⟨⟨by decide, by decide⟩, by decide, rfl,
   (run_migrates_one_step cfgW okProc okProc none stC1 0 stC1 cW
     ⟨by decide, by decide⟩ (by decide) rfl).2.1⟩

end Memoric
